import Mathlib

set_option maxHeartbeats 1000000

namespace ZhLearn

/-! Shallow embedding of the `card-builder` crate (`src/main.rs`,
`src/file_db.rs`).  Text is modelled as `List Char`; Rust byte positions in
the record store become character positions (the store's cursor arithmetic is
unit-agnostic).  External collaborators (the jieba tokenizer and the
grapheme-cluster counter from `unicode_segmentation`) are taken as
parameters, matching the spec's treatment of tokenization as pluggable. -/

/-- An HSK lexicon row: `struct HskPhrase { simplified, level }` in
`main.rs`.  `HskLevel` is modelled as a bare `Nat`. -/
structure HskPhrase where
  simplified : List Char
  level : Nat
  deriving DecidableEq, Repr

/-- Rust `str::parse::<usize>`: an optional leading `'+'`, then one or more
ASCII digits, with the value required to fit in a 64-bit `usize`. -/
def parseUsize (s : List Char) : Option Nat :=
  let digits := match s with
    | '+' :: rest => rest
    | _ => s
  if digits.isEmpty then none
  else if digits.all (fun c => c.isDigit) then
    let n := digits.foldl (fun acc c => acc * 10 + (c.toNat - 48)) 0
    if n < 2 ^ 64 then some n else none
  else none

/-- Model of `parse_level` (`main.rs` lines 25-38): the label `"7-9"` maps to level 7,
any other label is parsed as a `usize`; `none` models the fatal `Err`. -/
def parse_level (s : List Char) : Option Nat :=
  if s = "7-9".toList then some 7 else parseUsize s

/-- Rust's fail-fast `collect::<Option<Vec<_>>>` / `collect::<Result<Vec<_>>>`:
the whole result is `none` as soon as one element fails, with no partial
list. -/
def collectOpt {α β : Type} (f : α → Option β) : List α → Option (List β)
  | [] => some []
  | a :: l =>
    match f a with
    | none => none
    | some b => (collectOpt f l).map (fun bs => b :: bs)

/-- The row-parsing logic of `read_hsk` (`main.rs` lines 69-88): each CSV row
is a `(Simplified, Level)` pair of strings; `collect::<Result<Vec<_>>>` is
fail-fast, so one bad row aborts the whole load (`none`, no partial list). -/
def read_hsk (rows : List (List Char × List Char)) : Option (List HskPhrase) :=
  collectOpt (fun r => (parse_level r.2).map (fun n => HskPhrase.mk r.1 n)) rows

/-- The per-level lookup `self.levels[&level].get(word)` built in `read_hsk`:
the `HashMap` is collected from the phrases of exactly that level in index
order, so for duplicate texts the highest index wins. -/
def lookupLevel (phrases : List HskPhrase) (t : Nat) (w : List Char) : Option Nat :=
  (phrases.enum.reverse.find?
    (fun ip => ip.2.level == t && ip.2.simplified == w)).map Prod.fst

/-- Model of `hsk_levels().rev()`: levels 7 down to 1. -/
def tierListRev : List Nat := [7, 6, 5, 4, 3, 2, 1]

/-- One token's classification inside `Hsk::analyze`: the first level,
searching from 7 down to 1, whose lookup map contains the word, paired with
the phrase index found there. -/
def findWord (phrases : List HskPhrase) (w : List Char) : Option (Nat × Nat) :=
  tierListRev.findSome? (fun t => (lookupLevel phrases t w).map (fun i => (t, i)))

/-- Model of `self.phrases.value(idx).level`: the level of the phrase at index `i`. -/
def levelAt (phrases : List HskPhrase) (i : Nat) : Nat :=
  ((phrases.get? i).map HskPhrase.level).getD 0

/-- Model of `Hsk::analyze` (`main.rs` lines 120-136), with the returned iterator
collected to a list as at its call site. -/
def analyze (phrases : List HskPhrase) (words : List (List Char)) : Option (List Nat) := do
  let word_analysis ← collectOpt (findWord phrases) words
  let level ← (word_analysis.map Prod.fst).max?
  return (word_analysis.filter (fun p => levelAt phrases p.2 == level)).map Prod.snd

/-- Membership in the sentence-terminator class `[。！？]`. -/
def isTerm (c : Char) : Bool := c = '。' || c = '！' || c = '？'

/-- The Unicode `White_Space` property, which is what Rust `str::trim`
strips. -/
def isWS (c : Char) : Bool :=
  (9 ≤ c.toNat && c.toNat ≤ 13) || c.toNat == 32 || c.toNat == 133 ||
  c.toNat == 160 || c.toNat == 5760 || (8192 ≤ c.toNat && c.toNat ≤ 8202) ||
  c.toNat == 8232 || c.toNat == 8233 || c.toNat == 8239 || c.toNat == 8287 ||
  c.toNat == 12288

/-- Rust `str::trim`. -/
def trim (s : List Char) : List Char :=
  ((s.dropWhile isWS).reverse.dropWhile isWS).reverse

/-- Model of `Regex::new(r"[。！？]+").split(text)`: the fragments between maximal
runs of terminator characters (with an empty fragment before a leading run,
after a trailing run, and the whole string when there is no run at all). -/
def splitOnRuns : List Char → List (List Char)
  | [] => [[]]
  | c :: rest =>
    if isTerm c then
      match rest with
      | [] => [[], []]
      | d :: _ => if isTerm d then splitOnRuns rest else [] :: splitOnRuns rest
    else
      match splitOnRuns rest with
      | [] => [[c]]
      | f :: fs => (c :: f) :: fs

/-- Model of `split_sentences` (`main.rs` lines 108-114): regex split, then
`.filter(|s| !s.is_empty())`, then `.map(|s| s.trim())` — the emptiness
filter runs before the trim, exactly as in the source. -/
def split_sentences (text : List Char) : List (List Char) :=
  ((splitOnRuns text).filter (fun s => !s.isEmpty)).map trim

/-- Model of `struct Snippet` (`main.rs` lines 139-144).  The Rust fields are named
`prefix`, `sentence`, `suffix`; the context fields are called `pre` and
`suf` here because of Lean keyword restrictions. -/
structure Snippet where
  pre : Option (List Char)
  sentence : List Char
  suf : Option (List Char)
  deriving DecidableEq, Repr

/-- Lower-case hexadecimal digit, as emitted by `serde_json`. -/
def hexDigit (n : Nat) : Char :=
  if n < 10 then Char.ofNat (48 + n) else Char.ofNat (87 + n)

/-- Model of the `serde_json` string escaping: `"` and `\` get a backslash escape, the
named control escapes `\b \f \n \r \t` are used where they exist, any other
control character becomes `\u00XX`, and everything else is verbatim. -/
def escapeChar (c : Char) : List Char :=
  if c = '"' then ['\\', '"']
  else if c = '\\' then ['\\', '\\']
  else if c.toNat = 8 then ['\\', 'b']
  else if c.toNat = 12 then ['\\', 'f']
  else if c = '\n' then ['\\', 'n']
  else if c = '\r' then ['\\', 'r']
  else if c = '\t' then ['\\', 't']
  else if c.toNat < 32 then
    ['\\', 'u', '0', '0', hexDigit (c.toNat / 16), hexDigit (c.toNat % 16)]
  else [c]

/-- A JSON string literal: quote, escaped body, quote. -/
def encodeString (s : List Char) : List Char :=
  '"' :: s.foldr (fun c acc => escapeChar c ++ acc) ['"']

/-- Serialization of `Option<String>`: `None` is `null`, `Some` is a string. -/
def encodeOptString : Option (List Char) → List Char
  | none => "null".toList
  | some s => encodeString s

/-- Model of `serde_json::to_writer` applied to a `Snippet`: fields in declaration
order (`prefix`, `sentence`, `suffix`), no whitespace. -/
def encodeSnippet (sn : Snippet) : List Char :=
  "\x7b\"prefix\":".toList ++ encodeOptString sn.pre ++
  ",\"sentence\":".toList ++ encodeString sn.sentence ++
  ",\"suffix\":".toList ++ encodeOptString sn.suf ++ "\x7d".toList

/-- Value of a hexadecimal digit (`serde_json` accepts both cases). -/
def parseHex (c : Char) : Option Nat :=
  if 48 ≤ c.toNat ∧ c.toNat ≤ 57 then some (c.toNat - 48)
  else if 97 ≤ c.toNat ∧ c.toNat ≤ 102 then some (c.toNat - 87)
  else if 65 ≤ c.toNat ∧ c.toNat ≤ 70 then some (c.toNat - 55)
  else none

/-- Parse the body of a JSON string (after the opening quote) up to and
including the closing quote, returning the decoded text and the rest of the
input.  Unescaped control characters are rejected, as in `serde_json`. -/
def escapeTable (e : Char) : Option Char :=
  if e = '"' then some '"'
  else if e = '\\' then some '\\'
  else if e = '/' then some '/'
  else if e = 'b' then some (Char.ofNat 8)
  else if e = 'f' then some (Char.ofNat 12)
  else if e = 'n' then some '\n'
  else if e = 'r' then some '\r'
  else if e = 't' then some '\t'
  else none

def parseStringBody : List Char → Option (List Char × List Char)
  | [] => none
  | c :: rest =>
    if c = '"' then some ([], rest)
    else if c = '\\' then
      match rest with
      | [] => none
      | e :: rest2 =>
        if e = 'u' then
          match rest2 with
          | h1 :: h2 :: h3 :: h4 :: rest3 => do
            let n1 ← parseHex h1
            let n2 ← parseHex h2
            let n3 ← parseHex h3
            let n4 ← parseHex h4
            let code := ((n1 * 16 + n2) * 16 + n3) * 16 + n4
            if code < 55296 then
              (parseStringBody rest3).map (fun p => (Char.ofNat code :: p.1, p.2))
            else none
          | _ => none
        else
          match escapeTable e with
          | none => none
          | some d => (parseStringBody rest2).map (fun p => (d :: p.1, p.2))
    else if c.toNat < 32 then none
    else (parseStringBody rest).map (fun p => (c :: p.1, p.2))

/-- Consume an exact literal from the front of the input. -/
def dropLit : List Char → List Char → Option (List Char)
  | [], input => some input
  | _ :: _, [] => none
  | c :: ls, d :: input => if c = d then dropLit ls input else none

/-- Parse a JSON string literal (opening quote included). -/
def parseJString (input : List Char) : Option (List Char × List Char) :=
  match input with
  | '"' :: rest => parseStringBody rest
  | _ => none

/-- Parse `null` or a JSON string. -/
def parseOptString (input : List Char) : Option (Option (List Char) × List Char) :=
  match dropLit "null".toList input with
  | some rest => some (none, rest)
  | none => (parseJString input).map (fun p => (some p.1, p.2))

/-- Model of `serde_json::from_slice::<Snippet>`, specialised to the store's snippet
encoding; the whole buffer must be consumed. -/
def decodeSnippet (input : List Char) : Option Snippet := do
  let r1 ← dropLit "\x7b\"prefix\":".toList input
  let (p, r2) ← parseOptString r1
  let r3 ← dropLit ",\"sentence\":".toList r2
  let (s, r4) ← parseJString r3
  let r5 ← dropLit ",\"suffix\":".toList r4
  let (q, r6) ← parseOptString r5
  let r7 ← dropLit "\x7d".toList r6
  if r7.isEmpty then some (Snippet.mk p s q) else none

/-- Model of `FileDbWriter` (`file_db.rs`): the bytes written so far and the running
cursor `byte_pos` (the scratch buffer `buf` is not part of the state). -/
structure FileDbWriter where
  file : List Char
  byte_pos : Nat
  deriving Repr

/-- Model of `FileDbWriter::new`: empty file, cursor at 0. -/
def FileDbWriter.new : FileDbWriter := FileDbWriter.mk [] 0

/-- Model of `FileDbWriter::write` (`file_db.rs` lines 25-36): serialize, append, and
return the half-open range `[start, start + len)`. -/
def FileDbWriter.write (w : FileDbWriter) (obj : Snippet) :
    FileDbWriter × (Nat × Nat) :=
  let buf := encodeSnippet obj
  let start := w.byte_pos
  let len := buf.length
  (FileDbWriter.mk (w.file ++ buf) (w.byte_pos + len), (start, start + len))

/-- Model of `FileDbReader::read` (`file_db.rs` lines 52-59): seek to `range.start`,
read `range.end - range.start` bytes, decode them. -/
def FileDbReader.read (file : List Char) (range : Nat × Nat) : Option Snippet :=
  decodeSnippet ((file.drop range.1).take (range.2 - range.1))

/-- Model of `struct CorpusEntry`, with fields `text` and `score`.  The f64 score is modelled as a
rational; no claim depends on floating-point rounding. -/
structure CorpusEntry where
  text : List Char
  score : ℚ

/-- The constant `SCORE_THRESHOLD = 0.8`. -/
def SCORE_THRESHOLD : ℚ := 4 / 5

/-- The constant `LEN_THRESHOLD = 10`. -/
def LEN_THRESHOLD : Nat := 10

/-- Model of `html_escape::encode_safe`: the five markup-significant characters become
entities, everything else is verbatim. -/
def htmlEncodeSafe (s : List Char) : List Char :=
  s.foldr
    (fun c acc =>
      (if c = '&' then "&amp;".toList
       else if c = '<' then "&lt;".toList
       else if c = '>' then "&gt;".toList
       else if c = '"' then "&quot;".toList
       else if c = '\'' then "&#x27;".toList
       else [c]) ++ acc) []

/-- The `sentence_analysis` vector of `build_corpus` (`main.rs` lines
170-177): each sentence is cut by the (pluggable) tokenizer and classified;
a failed classification leaves `none`, losing the sentence text. -/
def analyzeSentences (phrases : List HskPhrase) (tokenize : List Char → List (List Char))
    (sentences : List (List Char)) : List (Option (List Char × List Nat)) :=
  sentences.map (fun s => (analyze phrases (tokenize s)).map (fun ph => (s, ph)))

/-- The `prefix` computed at `main.rs` lines 188-194: for `i > 0` it is the
text of entry `i-1` of `sentence_analysis` — which is `none` when that
sentence failed classification. -/
def snippetPre (sa : List (Option (List Char × List Nat))) (i : Nat) :
    Option (List Char) :=
  if 0 < i then (sa.getD (i - 1) none).map Prod.fst else none

/-- The `suffix` computed at `main.rs` lines 196-202. -/
def snippetSuf (sa : List (Option (List Char × List Nat))) (i : Nat) :
    Option (List Char) :=
  if i < sa.length - 1 then (sa.getD (i + 1) none).map Prod.fst else none

/-- The in-memory state of the corpus pass: the record-store writer plus
`phrase_map`, the per-handle list of byte ranges. -/
structure RunState where
  writer : FileDbWriter
  phrase_map : Nat → List (Nat × Nat)

/-- Model of the loop `for idx in phrases` that pushes the range onto `phrase_map[*idx]`. -/
def pushRange (pm : Nat → List (Nat × Nat)) (idxs : List Nat) (r : Nat × Nat) :
    Nat → List (Nat × Nat) :=
  idxs.foldl (fun pm i => fun h => if h = i then pm h ++ [r] else pm h) pm

/-- The body of the indexing loop of `build_corpus` (`main.rs` lines
179-215) at index `i`: skip unclassified sentences, skip classified
sentences shorter than `LEN_THRESHOLD` grapheme clusters (`glen` is the
grapheme-cluster counter), otherwise write the snippet and credit every
handle of the sentence with the returned range. -/
def recordStep (glen : List Char → Nat) (sa : List (Option (List Char × List Nat)))
    (i : Nat) (st : RunState) : RunState :=
  match sa.getD i none with
  | none => st
  | some (sentence, phrases) =>
    if glen sentence < LEN_THRESHOLD then st
    else
      let snippet := Snippet.mk (snippetPre sa i) sentence (snippetSuf sa i)
      let wr := st.writer.write snippet
      RunState.mk wr.1 (pushRange st.phrase_map phrases wr.2)

/-- The `for i in 0..sentence_analysis.len()` loop. -/
def processRecord (glen : List Char → Nat) (sa : List (Option (List Char × List Nat)))
    (st : RunState) : RunState :=
  (List.range sa.length).foldl (fun st i => recordStep glen sa i st) st

/-- Processing of one corpus line (`main.rs` lines 160-216): score filter,
HTML escaping, sentence split, classification, indexing loop. -/
def processEntry (phrases : List HskPhrase) (tokenize : List Char → List (List Char))
    (glen : List Char → Nat) (entry : CorpusEntry) (st : RunState) : RunState :=
  if entry.score < SCORE_THRESHOLD then st
  else
    processRecord glen
      (analyzeSentences phrases tokenize (split_sentences (htmlEncodeSafe entry.text)))
      st

/-- Rust `Vec::dedup`: remove *consecutive* duplicates, keeping the first of
each run. -/
def dedupConsec : List (Nat × Nat) → List (Nat × Nat)
  | [] => []
  | [a] => [a]
  | a :: b :: rest =>
    if a = b then dedupConsec (a :: rest) else a :: dedupConsec (b :: rest)

/-- Model of `build_corpus` (`main.rs` lines 148-224) over in-memory corpus files
(each file a list of already-parsed lines, capped at 100000 as in the
source), followed by the final per-handle `dedup` (lines 219-221). -/
def build_corpus (phrases : List HskPhrase) (tokenize : List Char → List (List Char))
    (glen : List Char → Nat) (files : List (List CorpusEntry)) : RunState :=
  let st0 := RunState.mk FileDbWriter.new (fun _ => [])
  files.foldl
    (fun st entries =>
      (entries.take 100000).foldl (fun st e => processEntry phrases tokenize glen e st) st)
    st0

/-- The deduplicated range index returned by `build_corpus`. -/
def dedupedIndex (phrases : List HskPhrase) (tokenize : List Char → List (List Char))
    (glen : List Char → Nat) (files : List (List CorpusEntry)) : Nat → List (Nat × Nat) :=
  fun h => dedupConsec ((build_corpus phrases tokenize glen files).phrase_map h)

/-- The `sort_by_key` key in `build_decks` (`main.rs` lines 319-328): minus the
number of present context fields. -/
def sortKey (sn : Snippet) : Int :=
  -((if sn.pre.isSome then 1 else 0) + (if sn.suf.isSome then 1 else 0))

/-- The per-level snippet list of `build_decks` (`main.rs` lines 303-315)
before the shuffle: every stored range of every phrase of the level,
resolved through `FileDbReader.read`. -/
def deckInput (phrases : List HskPhrase) (file : List Char)
    (file_index : Nat → List (Nat × Nat)) (level : Nat) : List (Snippet × HskPhrase) :=
  (phrases.enum.filter (fun ip => ip.2.level == level)).flatMap
    (fun ip => (file_index ip.1).filterMap
      (fun rg => (FileDbReader.read file rg).map (fun sn => (sn, ip.2))))

/-- The key order used by the stable sort. -/
def deckLe (a b : Snippet × HskPhrase) : Prop := sortKey a.1 ≤ sortKey b.1

instance : DecidableRel deckLe := fun _ _ => inferInstanceAs (Decidable (_ ≤ _))

/-- The per-level deck contents after the shuffle (`l` is the shuffled
list): stable sort by context richness, then `take(50)` (`main.rs` lines
317-335).  Rust's `sort_by_key` is a stable sort, and a stable sort's output
is determined by the key order together with stability, so insertion sort is
an exact model. -/
def deckOrder (l : List (Snippet × HskPhrase)) : List (Snippet × HskPhrase) :=
  (List.insertionSort deckLe l).take 50

/-- A sequence of writes through one `FileDbWriter`, collecting the
returned ranges in write order. -/
def writeAll (w : FileDbWriter) : List Snippet → FileDbWriter × List (Nat × Nat)
  | [] => (w, [])
  | s :: rest =>
    let wr := w.write s
    let tailRes := writeAll wr.1 rest
    (tailRes.1, wr.2 :: tailRes.2)

/-! ### Round trip of the snippet codec -/

theorem char_ofNat_toNat (c : Char) (h : c.toNat < 55296) : Char.ofNat c.toNat = c := by
  have hv : c.toNat.isValidChar := Or.inl h
  simp only [Char.ofNat, hv, dite_true]
  apply Char.ext
  apply UInt32.ext
  simp [Char.ofNatAux, Char.toNat, UInt32.toNat]

theorem parseHex_hexDigit : ∀ m, m < 16 → parseHex (hexDigit m) = some m := by decide

theorem foldr_escape_append (s t1 t2 : List Char) :
    s.foldr (fun c acc => escapeChar c ++ acc) t1 ++ t2 =
      s.foldr (fun c acc => escapeChar c ++ acc) (t1 ++ t2) := by
  induction s with
  | nil => rfl
  | cons c s ih => simp [List.foldr_cons, List.append_assoc, ih]

theorem parseStringBody_unicode (t : Nat) (ht : t < 32) (tail : List Char) :
    parseStringBody
        ('\\' :: 'u' :: '0' :: '0' :: hexDigit (t / 16) :: hexDigit (t % 16) :: tail) =
      (parseStringBody tail).map (fun p => (Char.ofNat t :: p.1, p.2)) := by
  have hd : parseHex (hexDigit (t / 16)) = some (t / 16) :=
    parseHex_hexDigit _ (by omega)
  have hm : parseHex (hexDigit (t % 16)) = some (t % 16) :=
    parseHex_hexDigit _ (by omega)
  have h0 : parseHex '0' = some 0 := by simp [parseHex]
  have hlt : t < 55296 := by omega
  rw [parseStringBody.eq_def]
  simp [h0, hd, hm]
  rw [show t / 16 * 16 + t % 16 = t by omega]
  simp [hlt]

theorem parseStringBody_escapeChar (c : Char) (tail : List Char) :
    parseStringBody (escapeChar c ++ tail) =
      (parseStringBody tail).map (fun p => (c :: p.1, p.2)) := by
  by_cases h1 : c = '"'
  · subst h1
    have he : escapeChar '"' = ['\\', '"'] := by simp [escapeChar]
    rw [he, List.cons_append, List.cons_append, List.nil_append,
      parseStringBody.eq_def]
    simp [escapeTable]
  by_cases h2 : c = '\\'
  · subst h2
    have he : escapeChar '\\' = ['\\', '\\'] := by simp [escapeChar]
    rw [he, List.cons_append, List.cons_append, List.nil_append,
      parseStringBody.eq_def]
    simp [escapeTable]
  by_cases h3 : c.toNat = 8
  · have hc : Char.ofNat 8 = c := by rw [← h3]; exact char_ofNat_toNat c (by omega)
    have he : escapeChar c = ['\\', 'b'] := by simp [escapeChar, h1, h2, h3]
    rw [he, List.cons_append, List.cons_append, List.nil_append,
      parseStringBody.eq_def]
    simp [escapeTable]
    rw [hc]
  by_cases h4 : c.toNat = 12
  · have hc : Char.ofNat 12 = c := by rw [← h4]; exact char_ofNat_toNat c (by omega)
    have he : escapeChar c = ['\\', 'f'] := by simp [escapeChar, h1, h2, h3, h4]
    rw [he, List.cons_append, List.cons_append, List.nil_append,
      parseStringBody.eq_def]
    simp [escapeTable]
    rw [hc]
  by_cases h5 : c = '\n'
  · subst h5
    have he : escapeChar '\n' = ['\\', 'n'] := by simp [escapeChar]
    rw [he, List.cons_append, List.cons_append, List.nil_append,
      parseStringBody.eq_def]
    simp [escapeTable]
  by_cases h6 : c = '\r'
  · subst h6
    have he : escapeChar '\r' = ['\\', 'r'] := by simp [escapeChar]
    rw [he, List.cons_append, List.cons_append, List.nil_append,
      parseStringBody.eq_def]
    simp [escapeTable]
  by_cases h7 : c = '\t'
  · subst h7
    have he : escapeChar '\t' = ['\\', 't'] := by simp [escapeChar]
    rw [he, List.cons_append, List.cons_append, List.nil_append,
      parseStringBody.eq_def]
    simp [escapeTable]
  by_cases h8 : c.toNat < 32
  · have he : escapeChar c =
        ['\\', 'u', '0', '0', hexDigit (c.toNat / 16), hexDigit (c.toNat % 16)] := by
      simp [escapeChar, h1, h2, h3, h4, h5, h6, h7, h8]
    have hc : Char.ofNat c.toNat = c := char_ofNat_toNat c (by omega)
    rw [he]
    simp only [List.cons_append, List.nil_append]
    rw [parseStringBody_unicode c.toNat h8, hc]
  · have he : escapeChar c = [c] := by
      simp [escapeChar, h1, h2, h3, h4, h5, h6, h7, h8]
    rw [he, List.cons_append, List.nil_append, parseStringBody.eq_def]
    simp [h1, h2, h8]

theorem parseStringBody_roundtrip (s rest : List Char) :
    parseStringBody (s.foldr (fun c acc => escapeChar c ++ acc) ('"' :: rest)) =
      some (s, rest) := by
  induction s with
  | nil =>
    show parseStringBody ('"' :: rest) = _
    rw [parseStringBody.eq_def]
    simp
  | cons c s ih =>
    show parseStringBody (escapeChar c ++ _) = _
    rw [parseStringBody_escapeChar, ih]
    rfl

theorem parseJString_encodeString (s rest : List Char) :
    parseJString (encodeString s ++ rest) = some (s, rest) := by
  have h : encodeString s ++ rest =
      '"' :: s.foldr (fun c acc => escapeChar c ++ acc) ('"' :: rest) := by
    rw [encodeString, List.cons_append, foldr_escape_append]
    rfl
  rw [h, parseJString.eq_def]
  exact parseStringBody_roundtrip s rest

theorem dropLit_append (lit rest : List Char) : dropLit lit (lit ++ rest) = some rest := by
  induction lit with
  | nil => rfl
  | cons c lit ih => simp [dropLit, ih]

theorem parseOptString_encodeOptString (o : Option (List Char)) (rest : List Char) :
    parseOptString (encodeOptString o ++ rest) = some (o, rest) := by
  cases o with
  | none =>
    show parseOptString ("null".toList ++ rest) = _
    rw [parseOptString, dropLit_append]
  | some s =>
    show parseOptString (encodeString s ++ rest) = _
    rw [parseOptString]
    have hnull : dropLit "null".toList (encodeString s ++ rest) = none := by
      rw [show ("null".toList : List Char) = 'n' :: "ull".toList from rfl,
        encodeString, List.cons_append, dropLit]
      simp
    rw [hnull, parseJString_encodeString]
    rfl

theorem decodeSnippet_encodeSnippet (sn : Snippet) :
    decodeSnippet (encodeSnippet sn) = some sn := by
  rw [decodeSnippet, encodeSnippet]
  simp only [List.append_assoc]
  simp only [dropLit_append, parseOptString_encodeOptString,
    parseJString_encodeString, Option.bind_eq_bind, Option.some_bind,
    show dropLit "\x7d".toList ("\x7d".toList) = some [] from rfl]
  rfl

theorem encodeSnippet_length_pos (sn : Snippet) : 0 < (encodeSnippet sn).length := by
  rw [encodeSnippet]
  simp

/-- C5: writing any record through the Record Store writer and reading the
returned byte range back yields the same record.  The hypothesis is the
writer's own invariant (the cursor equals the length of the file), which
holds for `FileDbWriter.new` and is preserved by every write. -/
theorem c5_write_read_roundtrip (w : FileDbWriter) (r : Snippet)
    (h : w.byte_pos = w.file.length) :
    FileDbReader.read (w.write r).1.file (w.write r).2 = some r := by
  rw [FileDbWriter.write, FileDbReader.read]
  simp only [h, Nat.add_sub_cancel_left]
  rw [List.drop_left, List.take_length]
  exact decodeSnippet_encodeSnippet r

/-- Witness for C5 at a concrete record with an absent context field. -/
theorem c5_write_read_roundtrip_witness :
    FileDbReader.read
        (FileDbWriter.new.write (Snippet.mk none "你好，世界".toList (some "好".toList))).1.file
        (FileDbWriter.new.write (Snippet.mk none "你好，世界".toList (some "好".toList))).2 =
      some (Snippet.mk none "你好，世界".toList (some "好".toList)) :=
  c5_write_read_roundtrip FileDbWriter.new _ rfl

/-- C6: over any sequence of writes, the returned ranges are contiguous
(each starts where the previous one ended), non-empty, and pairwise
non-overlapping and strictly increasing in write order. -/
theorem c6_ranges_monotone (w : FileDbWriter) (snips : List Snippet) :
    (writeAll w snips).2.Chain' (fun a b => a.2 = b.1) ∧
      (∀ r ∈ (writeAll w snips).2, w.byte_pos ≤ r.1 ∧ r.1 < r.2) ∧
      (writeAll w snips).2.Pairwise (fun a b => a.2 ≤ b.1 ∧ a.1 < b.1) := by
  induction snips generalizing w with
  | nil => simp [writeAll]
  | cons s rest ih =>
    rw [writeAll]
    obtain ⟨ihChain, ihBound, ihPair⟩ := ih (w.write s).1
    have hpos : (w.write s).1.byte_pos = w.byte_pos + (encodeSnippet s).length := rfl
    have hrg : (w.write s).2 = (w.byte_pos, w.byte_pos + (encodeSnippet s).length) := rfl
    have hlen := encodeSnippet_length_pos s
    have hhead : ∀ r ∈ (writeAll (w.write s).1 rest).2.head?,
        r.1 = (w.write s).1.byte_pos := by
      intro r hr
      cases hw : (writeAll (w.write s).1 rest).2 with
      | nil => rw [hw] at hr; simp at hr
      | cons r0 rs =>
        rw [hw] at hr
        simp only [List.head?_cons, Option.mem_def, Option.some_inj] at hr
        subst hr
        cases rest with
        | nil => simp [writeAll] at hw
        | cons s' rest' =>
          rw [writeAll] at hw
          simp only [List.cons.injEq] at hw
          rw [← hw.1]
          rfl
    refine ⟨?_, ?_, ?_⟩
    · rw [List.chain'_cons']
      constructor
      · intro y hy
        rw [hrg]
        rw [hhead y hy, hpos]
      · exact ihChain
    · intro r hr
      rcases List.mem_cons.mp hr with h | h
      · subst h
        rw [hrg]
        constructor
        · exact Nat.le_refl _
        · omega
      · obtain ⟨h1, h2⟩ := ihBound r h
        rw [hpos] at h1
        constructor
        · omega
        · exact h2
    · rw [List.pairwise_cons]
      refine ⟨?_, ihPair⟩
      intro r hr
      obtain ⟨h1, h2⟩ := ihBound r hr
      rw [hpos] at h1
      rw [hrg]
      constructor
      · omega
      · omega

/-! ### Classification lemmas -/

theorem collectOpt_none {α β : Type} (f : α → Option β) {l : List α} {w : α}
    (hw : w ∈ l) (hf : f w = none) : collectOpt f l = none := by
  induction l with
  | nil => simp at hw
  | cons a l ih =>
    rcases List.mem_cons.mp hw with h | h
    · subst h
      simp [collectOpt, hf]
    · cases ha : f a with
      | none => simp [collectOpt, ha]
      | some b => simp [collectOpt, ha, ih h]

theorem collectOpt_all_some {α β : Type} (f : α → Option β) {l : List α}
    (h : ∀ w ∈ l, (f w).isSome) : collectOpt f l = some (l.filterMap f) := by
  induction l with
  | nil => simp [collectOpt]
  | cons a l ih =>
    obtain ⟨b, hb⟩ := Option.isSome_iff_exists.mp (h a (List.mem_cons_self a l))
    have ht := ih (fun w hw => h w (List.mem_cons_of_mem a hw))
    simp [collectOpt, hb, ht, List.filterMap_cons]

theorem findWord_eq_none {phrases : List HskPhrase} {w : List Char}
    (habs : ∀ t ∈ tierListRev, lookupLevel phrases t w = none) :
    findWord phrases w = none := by
  rw [findWord]
  rw [List.findSome?_eq_none_iff]
  intro t ht
  rw [habs t ht]
  rfl

theorem findSome?_lookup_inv {phrases : List HskPhrase} {w : List Char}
    {t i : Nat} :
    ∀ ts : List Nat,
      ts.findSome? (fun t => (lookupLevel phrases t w).map (fun i => (t, i))) =
        some (t, i) →
      lookupLevel phrases t w = some i := by
  intro ts
  induction ts with
  | nil => intro h; simp at h
  | cons t' ts ih =>
    intro h
    rw [List.findSome?_cons] at h
    cases hl : lookupLevel phrases t' w with
    | none => rw [hl] at h; simp at h; exact ih h
    | some j =>
      rw [hl] at h
      simp only [Option.map_some'] at h
      injection h with h
      injection h with h1 h2
      subst h1
      subst h2
      exact hl

theorem findWord_inv {phrases : List HskPhrase} {w : List Char} {t i : Nat}
    (h : findWord phrases w = some (t, i)) : lookupLevel phrases t w = some i :=
  findSome?_lookup_inv tierListRev h

theorem lookupLevel_levelAt {phrases : List HskPhrase} {t : Nat} {w : List Char}
    {i : Nat} (h : lookupLevel phrases t w = some i) : levelAt phrases i = t := by
  rw [lookupLevel] at h
  cases hf : (phrases.enum.reverse.find?
      (fun ip => ip.2.level == t && ip.2.simplified == w)) with
  | none => rw [hf] at h; simp at h
  | some ip =>
    rw [hf] at h
    simp only [Option.map_some', Option.some_inj] at h
    have hp := List.find?_some hf
    simp only [Bool.and_eq_true, beq_iff_eq] at hp
    have hm : ip ∈ phrases.enum := List.mem_reverse.mp (List.mem_of_find?_eq_some hf)
    have hg : phrases.get? ip.1 = some ip.2 := List.mem_enum_iff_get?.mp hm
    rw [levelAt, ← h, hg]
    simp [hp.1]

/-- C1: a sentence containing even one token that is absent from the lexicon
at every tier classifies to `None`, and the corresponding iteration of the
indexing loop leaves the run state untouched — nothing is written to the
record store and no handle is credited. -/
theorem c1_unmatched_token_rejects (phrases : List HskPhrase)
    (tokenize : List Char → List (List Char)) (glen : List Char → Nat)
    (sentences : List (List Char)) (i : Nat) (st : RunState) (w : List Char)
    (hw : w ∈ tokenize (sentences.getD i []))
    (habs : ∀ t ∈ tierListRev, lookupLevel phrases t w = none) :
    analyze phrases (tokenize (sentences.getD i [])) = none ∧
      recordStep glen (analyzeSentences phrases tokenize sentences) i st = st := by
  have hfw : findWord phrases w = none := findWord_eq_none habs
  have hcol : collectOpt (findWord phrases) (tokenize (sentences.getD i [])) = none :=
    collectOpt_none _ hw hfw
  have hana : analyze phrases (tokenize (sentences.getD i [])) = none := by
    rw [analyze, hcol]
    rfl
  refine ⟨hana, ?_⟩
  have hsa : (analyzeSentences phrases tokenize sentences).getD i none = none := by
    rw [analyzeSentences, List.getD_eq_getElem?_getD, List.getElem?_map]
    cases hge : sentences[i]? with
    | none => rfl
    | some s =>
      have hs : sentences.getD i [] = s := by
        rw [List.getD_eq_getElem?_getD, hge]
        rfl
      rw [hs] at hana
      simp only [Option.map_some', Option.getD_some, hana]
      rfl
  rw [recordStep, hsa]

/-- C2: when every token of a (non-empty) token sequence matches the
lexicon, classification succeeds and emits exactly the handles of the tokens
whose matched tier (the first tier containing them, searching from tier 7
down to tier 1) equals the maximum matched tier of the sentence. -/
theorem c2_handles_at_max_tier (phrases : List HskPhrase)
    (words : List (List Char)) (hne : words ≠ [])
    (hall : ∀ w ∈ words, (findWord phrases w).isSome) :
    ∃ L, ((words.filterMap (findWord phrases)).map Prod.fst).max? = some L ∧
      analyze phrases words =
        some (((words.filterMap (findWord phrases)).filter
          (fun p => p.1 == L)).map Prod.snd) := by
  have hcol := collectOpt_all_some (findWord phrases) hall
  have hlev : ∀ p ∈ words.filterMap (findWord phrases), levelAt phrases p.2 = p.1 := by
    intro p hp
    obtain ⟨w, hw, hfw⟩ := List.mem_filterMap.mp hp
    have hfw2 : findWord phrases w = some (p.1, p.2) := by
      rw [hfw]
    exact lookupLevel_levelAt (findWord_inv hfw2)
  cases hmax : ((words.filterMap (findWord phrases)).map Prod.fst).max? with
  | none =>
    exfalso
    rw [List.max?_eq_none_iff, List.map_eq_nil] at hmax
    obtain ⟨w, hw⟩ := List.exists_mem_of_ne_nil words hne
    obtain ⟨p, hp⟩ := Option.isSome_iff_exists.mp (hall w hw)
    have hm : p ∈ words.filterMap (findWord phrases) :=
      List.mem_filterMap.mpr ⟨w, hw, hp⟩
    rw [hmax] at hm
    simp at hm
  | some L =>
    refine ⟨L, rfl, ?_⟩
    rw [analyze, hcol]
    simp only [Option.bind_eq_bind, Option.some_bind, hmax, Option.pure_def]
    have hfilt := List.filter_congr
      (fun p hp => by rw [hlev p hp] :
        ∀ p ∈ words.filterMap (findWord phrases),
          (levelAt phrases p.2 == L) = (p.1 == L))
    rw [hfilt]

/-- Witness for C2: the spec's own example lexicon.  `你好` is tier 1,
`世界` is tier 3; the sentence classifies to tier 3 and only the handle of
`世界` (index 1) is emitted. -/
theorem c2_handles_at_max_tier_witness :
    ∃ L, (([ "你好".toList, "世界".toList ].filterMap
        (findWord [⟨"你好".toList, 1⟩, ⟨"世界".toList, 3⟩])).map Prod.fst).max? = some L ∧
      analyze [⟨"你好".toList, 1⟩, ⟨"世界".toList, 3⟩]
          [ "你好".toList, "世界".toList ] =
        some ((([ "你好".toList, "世界".toList ].filterMap
          (findWord [⟨"你好".toList, 1⟩, ⟨"世界".toList, 3⟩])).filter
            (fun p => p.1 == L)).map Prod.snd) :=
  c2_handles_at_max_tier _ _ (by decide) (by decide)

/-- Witness for C1: the lexicon is empty, so the single token misses at all
tiers; classification yields `None` and the indexing step is the identity. -/
theorem c1_unmatched_token_rejects_witness :
    analyze [] ((fun s => [s]) (["嗯".toList].getD 0 [])) = none ∧
      recordStep List.length
          (analyzeSentences [] (fun s => [s]) ["嗯".toList]) 0
          (RunState.mk FileDbWriter.new (fun _ => [])) =
        RunState.mk FileDbWriter.new (fun _ => []) :=
  c1_unmatched_token_rejects [] (fun s => [s]) List.length ["嗯".toList] 0
    (RunState.mk FileDbWriter.new (fun _ => [])) "嗯".toList (by decide) (by decide)

/-! ### Context fields (C3) and the length threshold (C9) -/

theorem analyzeSentences_getD (phrases : List HskPhrase)
    (tokenize : List Char → List (List Char)) (sentences : List (List Char)) (j : Nat) :
    (analyzeSentences phrases tokenize sentences).getD j none =
      if j < sentences.length then
        (analyze phrases (tokenize (sentences.getD j []))).map
          (fun ph => (sentences.getD j [], ph))
      else none := by
  rw [analyzeSentences, List.getD_eq_getElem?_getD, List.getElem?_map]
  cases hge : sentences[j]? with
  | none =>
    have hj := List.getElem?_eq_none_iff.mp hge
    rw [if_neg (by omega)]
    rfl
  | some s =>
    obtain ⟨hj, _⟩ := List.getElem?_eq_some.mp hge
    have hs : sentences.getD j [] = s := by
      rw [List.getD_eq_getElem?_getD, hge]
      rfl
    rw [if_pos hj, hs]
    rfl

theorem analyzeSentences_length (phrases : List HskPhrase)
    (tokenize : List Char → List (List Char)) (sentences : List (List Char)) :
    (analyzeSentences phrases tokenize sentences).length = sentences.length := by
  rw [analyzeSentences, List.length_map]

/-- C3 counterexample: the second sentence classifies (its sole token is in
the lexicon) and is stored, the first sentence exists but fails
classification — and the stored snippet's context field for it is absent,
not the neighbour text: the record written to the store is exactly
`{"prefix":null,...,"suffix":null}`. -/
theorem c3_counterexample :
    snippetPre
        (analyzeSentences [HskPhrase.mk "好好好好好好好好好好".toList 1]
          (fun s => [s]) ["咦".toList, "好好好好好好好好好好".toList]) 1 = none ∧
      (processRecord List.length
          (analyzeSentences [HskPhrase.mk "好好好好好好好好好好".toList 1]
            (fun s => [s]) ["咦".toList, "好好好好好好好好好好".toList])
          (RunState.mk FileDbWriter.new (fun _ => []))).writer.file =
        encodeSnippet (Snippet.mk none "好好好好好好好好好好".toList none) := by
  constructor
  · rfl
  · rfl

/-- C3 amended: the stored snippet's context field is present iff the
neighbouring sentence exists *and* itself classified successfully (the
source keeps only classified sentences in `sentence_analysis`, so the text
of an unclassified neighbour is lost); when present it equals the
neighbour's text. -/
theorem c3_context_iff_neighbor_classified (phrases : List HskPhrase)
    (tokenize : List Char → List (List Char)) (sentences : List (List Char))
    (i : Nat) (hi : i < sentences.length) :
    ((snippetPre (analyzeSentences phrases tokenize sentences) i).isSome ↔
      0 < i ∧ (analyze phrases (tokenize (sentences.getD (i - 1) []))).isSome) ∧
    (∀ t, snippetPre (analyzeSentences phrases tokenize sentences) i = some t →
      t = sentences.getD (i - 1) []) ∧
    ((snippetSuf (analyzeSentences phrases tokenize sentences) i).isSome ↔
      i + 1 < sentences.length ∧
        (analyze phrases (tokenize (sentences.getD (i + 1) []))).isSome) ∧
    (∀ t, snippetSuf (analyzeSentences phrases tokenize sentences) i = some t →
      t = sentences.getD (i + 1) []) := by
  have hpre : snippetPre (analyzeSentences phrases tokenize sentences) i =
      if 0 < i then
        (analyze phrases (tokenize (sentences.getD (i - 1) []))).map
          (fun _ => sentences.getD (i - 1) [])
      else none := by
    rw [snippetPre]
    by_cases h0 : 0 < i
    · rw [if_pos h0, if_pos h0, analyzeSentences_getD, if_pos (by omega)]
      rw [Option.map_map]
      rfl
    · rw [if_neg h0, if_neg h0]
  have hsuf : snippetSuf (analyzeSentences phrases tokenize sentences) i =
      if i + 1 < sentences.length then
        (analyze phrases (tokenize (sentences.getD (i + 1) []))).map
          (fun _ => sentences.getD (i + 1) [])
      else none := by
    rw [snippetSuf, analyzeSentences_length]
    by_cases h1 : i + 1 < sentences.length
    · rw [if_pos (by omega), if_pos h1, analyzeSentences_getD, if_pos h1]
      rw [Option.map_map]
      rfl
    · rw [if_neg (by omega), if_neg h1]
  refine ⟨?_, ?_, ?_, ?_⟩
  · rw [hpre]
    by_cases h0 : 0 < i
    · simp [if_pos h0, h0]
    · simp [if_neg h0, h0]
  · intro t ht
    rw [hpre] at ht
    by_cases h0 : 0 < i
    · rw [if_pos h0] at ht
      obtain ⟨ph, -, h2⟩ := Option.map_eq_some'.mp ht
      exact h2.symm
    · rw [if_neg h0] at ht
      exact absurd ht (by simp)
  · rw [hsuf]
    by_cases h1 : i + 1 < sentences.length
    · simp [if_pos h1, h1]
    · simp [if_neg h1, h1]
  · intro t ht
    rw [hsuf] at ht
    by_cases h1 : i + 1 < sentences.length
    · rw [if_pos h1] at ht
      obtain ⟨ph, -, h2⟩ := Option.map_eq_some'.mp ht
      exact h2.symm
    · rw [if_neg h1] at ht
      exact absurd ht (by simp)

/-- Witness for the amended C3 at a concrete input: sentence 1 has an
unclassified neighbour at position 0, so its `prefix` is absent. -/
theorem c3_context_iff_neighbor_classified_witness :
    ¬(snippetPre
        (analyzeSentences [HskPhrase.mk "好".toList 1] (fun s => [s])
          ["咦".toList, "好".toList]) 1).isSome :=
  fun h =>
    absurd
      (((c3_context_iff_neighbor_classified [HskPhrase.mk "好".toList 1]
        (fun s => [s]) ["咦".toList, "好".toList] 1 (by decide)).1.mp h).2)
      (by decide)

/-- C9: a classified sentence is stored iff its grapheme-cluster count
(`glen` models `unicode_segmentation`'s cluster counter) reaches
`LEN_THRESHOLD = 10`: below the threshold the loop iteration is the
identity (silent skip), at or above it the snippet is appended to the
store. -/
theorem c9_length_threshold (glen : List Char → Nat)
    (sa : List (Option (List Char × List Nat))) (i : Nat) (st : RunState)
    (sentence : List Char) (ph : List Nat)
    (hcl : sa.getD i none = some (sentence, ph)) :
    (glen sentence < LEN_THRESHOLD → recordStep glen sa i st = st) ∧
      (LEN_THRESHOLD ≤ glen sentence →
        (recordStep glen sa i st).writer.file =
          st.writer.file ++
            encodeSnippet (Snippet.mk (snippetPre sa i) sentence (snippetSuf sa i))) := by
  constructor
  · intro h
    rw [recordStep, hcl]
    simp [h]
  · intro h
    rw [recordStep, hcl]
    simp [Nat.not_lt.mpr h, FileDbWriter.write]

/-- Witness for C9: with `glen` the code-point count (which equals the
grapheme count for these texts), a 9-character classified sentence is
skipped and a 10-character one is written. -/
theorem c9_length_threshold_witness :
    recordStep List.length [some ("九个字九个字九个字".toList, [0])] 0
        (RunState.mk FileDbWriter.new (fun _ => [])) =
      RunState.mk FileDbWriter.new (fun _ => []) ∧
      (recordStep List.length [some ("十个字十个字十个字十".toList, [0])] 0
          (RunState.mk FileDbWriter.new (fun _ => []))).writer.file =
        (RunState.mk FileDbWriter.new (fun _ => [])).writer.file ++
          encodeSnippet (Snippet.mk
            (snippetPre [some ("十个字十个字十个字十".toList, [0])] 0)
            "十个字十个字十个字十".toList
            (snippetSuf [some ("十个字十个字十个字十".toList, [0])] 0)) :=
  ⟨(c9_length_threshold List.length [some ("九个字九个字九个字".toList, [0])] 0
      (RunState.mk FileDbWriter.new (fun _ => [])) _ _ rfl).1 (by decide),
    (c9_length_threshold List.length [some ("十个字十个字十个字十".toList, [0])] 0
      (RunState.mk FileDbWriter.new (fun _ => [])) _ _ rfl).2 (by decide)⟩

/-! ### Sentence splitting (C7) and lexicon loading (C4) -/

theorem splitOnRuns_cons (a : Char) (rest : List Char) :
    splitOnRuns (a :: rest) =
      if isTerm a then
        match rest with
        | [] => [[], []]
        | d :: _ => if isTerm d then splitOnRuns rest else [] :: splitOnRuns rest
      else
        match splitOnRuns rest with
        | [] => [[a]]
        | f :: fs => (a :: f) :: fs := rfl

theorem splitOnRuns_no_term :
    ∀ text : List Char, ∀ s ∈ splitOnRuns text, ∀ c ∈ s, isTerm c = false := by
  intro text
  induction text with
  | nil =>
    intro s hs c hc
    rw [show splitOnRuns [] = [[]] from rfl] at hs
    simp only [List.mem_singleton] at hs
    subst hs
    simp at hc
  | cons a rest ih =>
    intro s hs c hc
    rw [splitOnRuns_cons] at hs
    by_cases ha : isTerm a
    · rw [if_pos ha] at hs
      cases rest with
      | nil =>
        change s ∈ [[], []] at hs
        rcases List.mem_cons.mp hs with h | h
        · subst h
          simp at hc
        · simp only [List.mem_singleton] at h
          subst h
          simp at hc
      | cons d rest' =>
        change s ∈ (if isTerm d then splitOnRuns (d :: rest')
            else [] :: splitOnRuns (d :: rest')) at hs
        by_cases hd : isTerm d
        · rw [if_pos hd] at hs
          exact ih s hs c hc
        · rw [if_neg hd] at hs
          rcases List.mem_cons.mp hs with h | h
          · subst h
            simp at hc
          · exact ih s h c hc
    · rw [if_neg ha] at hs
      cases hr : splitOnRuns rest with
      | nil =>
        rw [hr] at hs
        change s ∈ [[a]] at hs
        simp only [List.mem_singleton] at hs
        subst hs
        rcases List.mem_cons.mp hc with h | h
        · subst h
          simpa using ha
        · simp at h
      | cons f fs =>
        rw [hr] at hs
        change s ∈ (a :: f) :: fs at hs
        rcases List.mem_cons.mp hs with h | h
        · subst h
          rcases List.mem_cons.mp hc with h2 | h2
          · subst h2
            simpa using ha
          · exact ih f (by rw [hr]; exact List.mem_cons_self f fs) c h2
        · exact ih s (by rw [hr]; exact List.mem_cons_of_mem f h) c hc

theorem mem_trim {c : Char} {s : List Char} (h : c ∈ trim s) : c ∈ s := by
  rw [trim] at h
  have h1 := List.mem_reverse.mp h
  have h2 := (List.dropWhile_sublist isWS).subset h1
  have h3 := List.mem_reverse.mp h2
  exact (List.dropWhile_sublist isWS).subset h3

/-- C7 counterexample: a fragment consisting only of whitespace survives the
(pre-trim) emptiness filter and is trimmed to the empty string, so the
result can contain an empty element. -/
theorem c7_counterexample : [] ∈ split_sentences "A。 。B".toList := by decide

/-- C7 amended: `split_sentences` splits on maximal runs of `。！？`, drops
fragments that are empty *before* trimming, and trims the remaining
fragments — so all four of the spec's examples hold, but a
whitespace-only fragment between delimiters yields an empty string in the
output rather than being dropped.  No output fragment ever contains a
terminator character. -/
theorem c7_split_sentences :
    split_sentences "A。B！C".toList = [['A'], ['B'], ['C']] ∧
    split_sentences "".toList = [] ∧
    split_sentences "A".toList = [['A']] ∧
    split_sentences "A。。B".toList = [['A'], ['B']] ∧
    split_sentences "A。 。B".toList = [['A'], [], ['B']] ∧
    ∀ text : List Char, ∀ s ∈ split_sentences text, ∀ c ∈ s, isTerm c = false := by
  refine ⟨by decide, by decide, by decide, by decide, by decide, ?_⟩
  intro text s hs c hc
  rw [split_sentences] at hs
  obtain ⟨s0, hs0, hts⟩ := List.mem_map.mp hs
  have hs1 : s0 ∈ splitOnRuns text := (List.mem_filter.mp hs0).1
  subst hts
  exact splitOnRuns_no_term text s0 hs1 c (mem_trim hc)

/-- Witness for the universally quantified part of the amended C7. -/
theorem c7_split_sentences_witness : isTerm 'A' = false :=
  c7_split_sentences.2.2.2.2.2 "A".toList ['A'] (by decide) 'A' (by decide)

/-- C4 counterexample: the claim says a label such as "8" is a fatal parse
error, but `parse_level` accepts every `usize`-parseable label, so a row
with level "8" loads successfully. -/
theorem c4_counterexample :
    parse_level "8".toList = some 8 ∧
      read_hsk [("八".toList, "8".toList)] = some [HskPhrase.mk "八".toList 8] := by
  decide

/-- C4 amended: "1"–"6" map to their integer value and "7-9" to 7 as
claimed, but any other label is simply parsed as a `usize` — so numeric
labels such as "0", "8" or "42" are accepted with that value, and only
labels that fail `usize` parsing are fatal.  Such a failure still aborts
the whole load with no partial result. -/
theorem c4_parse_level :
    parse_level "7-9".toList = some 7 ∧
    parse_level "1".toList = some 1 ∧
    parse_level "2".toList = some 2 ∧
    parse_level "3".toList = some 3 ∧
    parse_level "4".toList = some 4 ∧
    parse_level "5".toList = some 5 ∧
    parse_level "6".toList = some 6 ∧
    (∀ s : List Char, s ≠ "7-9".toList → parse_level s = parseUsize s) ∧
    ∀ (rows : List (List Char × List Char)) (r : List Char × List Char),
      r ∈ rows → parse_level r.2 = none → read_hsk rows = none := by
  refine ⟨by decide, by decide, by decide, by decide, by decide, by decide, by decide,
    ?_, ?_⟩
  · intro s hs
    rw [parse_level, if_neg hs]
  · intro rows r hr hp
    exact collectOpt_none _ hr (by rw [hp]; rfl)

/-- Witness for the amended C4: a non-numeric label in one row aborts the
whole load. -/
theorem c4_parse_level_witness :
    read_hsk [("甲".toList, "abc".toList), ("乙".toList, "1".toList)] = none :=
  c4_parse_level.2.2.2.2.2.2.2.2
    [("甲".toList, "abc".toList), ("乙".toList, "1".toList)]
    ("甲".toList, "abc".toList) (by decide) (by decide)

/-! ### Deck assembly (C10) -/

theorem orderedInsert_filter_eq (a : Snippet × HskPhrase)
    (m : List (Snippet × HskPhrase)) (k : Int) (hk : sortKey a.1 = k) :
    (List.orderedInsert deckLe a m).filter (fun p => sortKey p.1 == k) =
      a :: m.filter (fun p => sortKey p.1 == k) := by
  induction m with
  | nil => simp [List.orderedInsert, hk]
  | cons b m ih =>
    rw [List.orderedInsert]
    by_cases hle : deckLe a b
    · rw [if_pos hle]
      simp [List.filter_cons, hk]
    · rw [if_neg hle]
      have hb : ¬(sortKey b.1 == k) = true := by
        simp only [beq_iff_eq]
        intro hbk
        exact hle (by rw [deckLe, hk, hbk])
      simp only [List.filter_cons, if_neg hb, ih]

theorem orderedInsert_filter_ne (a : Snippet × HskPhrase)
    (m : List (Snippet × HskPhrase)) (k : Int) (hk : sortKey a.1 ≠ k) :
    (List.orderedInsert deckLe a m).filter (fun p => sortKey p.1 == k) =
      m.filter (fun p => sortKey p.1 == k) := by
  induction m with
  | nil => simp [List.orderedInsert, hk]
  | cons b m ih =>
    rw [List.orderedInsert]
    by_cases hle : deckLe a b
    · rw [if_pos hle]
      simp [List.filter_cons, hk]
    · rw [if_neg hle]
      simp only [List.filter_cons, ih]

theorem insertionSort_filter (l : List (Snippet × HskPhrase)) (k : Int) :
    (List.insertionSort deckLe l).filter (fun p => sortKey p.1 == k) =
      l.filter (fun p => sortKey p.1 == k) := by
  induction l with
  | nil => rfl
  | cons a l ih =>
    rw [List.insertionSort]
    by_cases hk : sortKey a.1 = k
    · rw [orderedInsert_filter_eq a _ k hk, ih, List.filter_cons, if_pos (by simp [hk])]
    · rw [orderedInsert_filter_ne a _ k hk, ih, List.filter_cons, if_neg (by simp [hk])]

/-- C10: the per-tier deck is the shuffled snippet list stably sorted by
context richness and truncated to 50 entries: it has at most 50 pairs, every
pair precedes any pair with fewer present context fields, and the sort
preserves the shuffle's relative order within each richness class (filtering
the sorted list by any fixed key value gives exactly the shuffled list
filtered by that value). -/
theorem c10_deck_shape (phrases : List HskPhrase) (file : List Char)
    (file_index : Nat → List (Nat × Nat)) (level : Nat)
    (l : List (Snippet × HskPhrase))
    (_hshuffle : l.Perm (deckInput phrases file file_index level)) :
    (deckOrder l).length ≤ 50 ∧
      (deckOrder l).Sorted deckLe ∧
      ∀ k : Int, (List.insertionSort deckLe l).filter (fun p => sortKey p.1 == k) =
        l.filter (fun p => sortKey p.1 == k) := by
  haveI : IsTotal (Snippet × HskPhrase) deckLe := ⟨fun a b => Int.le_total _ _⟩
  haveI : IsTrans (Snippet × HskPhrase) deckLe := ⟨fun _ _ _ => Int.le_trans⟩
  refine ⟨List.length_take_le 50 _, ?_, fun k => insertionSort_filter l k⟩
  exact List.Pairwise.sublist (List.take_sublist 50 _)
    (List.sorted_insertionSort deckLe l)

/-- Witness for C10 on the empty deck input. -/
theorem c10_deck_shape_witness :
    (deckOrder []).length ≤ 50 ∧
      (deckOrder []).Sorted deckLe ∧
      ∀ k : Int, (List.insertionSort deckLe []).filter (fun p => sortKey p.1 == k) =
        ([] : List (Snippet × HskPhrase)).filter (fun p => sortKey p.1 == k) :=
  c10_deck_shape [] [] (fun _ => []) 1 [] (by simp [deckInput])

/-! ### Per-handle range lists and the final dedup (C8) -/

/-- Invariant of the corpus pass: every handle's range list has equal
elements only in adjacent positions (its entries are non-decreasing in start
offset, with strict growth between distinct entries), every range is
non-empty and every range ends at or before the writer's cursor. -/
def RunInv (st : RunState) : Prop :=
  ∀ h, (st.phrase_map h).Chain' (fun a b => a = b ∨ a.1 < b.1) ∧
    ∀ r ∈ st.phrase_map h, r.1 < r.2 ∧ r.2 ≤ st.writer.byte_pos

theorem pushRange_apply (pm : Nat → List (Nat × Nat)) (idxs : List Nat)
    (r : Nat × Nat) (h : Nat) :
    pushRange pm idxs r h = pm h ++ List.replicate (idxs.count h) r := by
  induction idxs generalizing pm with
  | nil => simp [pushRange]
  | cons i idxs ih =>
    have hstep : pushRange pm (i :: idxs) r =
        pushRange (fun h' => if h' = i then pm h' ++ [r] else pm h') idxs r := rfl
    rw [hstep, ih]
    by_cases hi : h = i
    · subst hi
      simp [List.count_cons, List.replicate_succ, List.append_assoc]
    · have hne : (i == h) = false := by simp [Ne.symm hi]
      simp [List.count_cons, hne, hi]

theorem chain'_replicate_of_refl {α : Type} (R : α → α → Prop) {x : α}
    (hx : R x x) : ∀ n, (List.replicate n x).Chain' R := by
  intro n
  induction n with
  | zero => simp
  | succ n ih =>
    cases n with
    | zero => simp
    | succ m =>
      rw [List.replicate_succ, List.replicate_succ]
      rw [List.chain'_cons]
      exact ⟨hx, by rw [← List.replicate_succ]; exact ih⟩

theorem recordStep_none (glen : List Char → Nat)
    (sa : List (Option (List Char × List Nat))) (i : Nat) (st : RunState)
    (hcl : sa.getD i none = none) : recordStep glen sa i st = st := by
  rw [recordStep, hcl]

theorem recordStep_some (glen : List Char → Nat)
    (sa : List (Option (List Char × List Nat))) (i : Nat) (st : RunState)
    (sentence : List Char) (ph : List Nat)
    (hcl : sa.getD i none = some (sentence, ph)) :
    recordStep glen sa i st =
      if glen sentence < LEN_THRESHOLD then st
      else
        RunState.mk
          (st.writer.write
            (Snippet.mk (snippetPre sa i) sentence (snippetSuf sa i))).1
          (pushRange st.phrase_map ph
            (st.writer.write
              (Snippet.mk (snippetPre sa i) sentence (snippetSuf sa i))).2) := by
  rw [recordStep, hcl]

theorem recordStep_inv (glen : List Char → Nat)
    (sa : List (Option (List Char × List Nat))) (i : Nat) (st : RunState)
    (hinv : RunInv st) : RunInv (recordStep glen sa i st) := by
  cases hcl : sa.getD i none with
  | none => rw [recordStep_none glen sa i st hcl]; exact hinv
  | some p =>
    obtain ⟨sentence, ph⟩ := p
    rw [recordStep_some glen sa i st sentence ph hcl]
    by_cases hlen : glen sentence < LEN_THRESHOLD
    · rw [if_pos hlen]
      exact hinv
    · rw [if_neg hlen]
      intro h
      obtain ⟨hchain, hbound⟩ := hinv h
      have hLpos :=
        encodeSnippet_length_pos (Snippet.mk (snippetPre sa i) sentence (snippetSuf sa i))
      simp only [FileDbWriter.write]
      rw [pushRange_apply]
      constructor
      · rw [List.chain'_append]
        refine ⟨hchain,
          chain'_replicate_of_refl
            (fun a b : Nat × Nat => a = b ∨ a.1 < b.1) (Or.inl rfl) _, ?_⟩
        intro x hx y hy
        have hxm : x ∈ st.phrase_map h := List.mem_of_mem_getLast? hx
        have hxb := (hbound x hxm).2
        have hxa := (hbound x hxm).1
        rw [List.head?_replicate] at hy
        by_cases hc : ph.count h = 0
        · rw [if_pos hc] at hy
          simp at hy
        · rw [if_neg hc] at hy
          simp only [Option.mem_def, Option.some_inj] at hy
          subst hy
          right
          omega
      · intro r hr
        rcases List.mem_append.mp hr with hm | hm
        · obtain ⟨h1, h2⟩ := hbound r hm
          exact ⟨h1, by omega⟩
        · obtain ⟨-, h2⟩ := List.mem_replicate.mp hm
          subst h2
          exact ⟨by omega, by omega⟩

theorem foldl_inv {β : Type} (f : RunState → β → RunState)
    (hf : ∀ st b, RunInv st → RunInv (f st b)) :
    ∀ (l : List β) (st : RunState), RunInv st → RunInv (l.foldl f st) := by
  intro l
  induction l with
  | nil => intro st h; exact h
  | cons b l ih => intro st h; exact ih _ (hf st b h)

theorem processRecord_inv (glen : List Char → Nat)
    (sa : List (Option (List Char × List Nat))) (st : RunState)
    (hinv : RunInv st) : RunInv (processRecord glen sa st) :=
  foldl_inv _ (fun st i h => recordStep_inv glen sa i st h) _ st hinv

theorem processEntry_inv (phrases : List HskPhrase)
    (tokenize : List Char → List (List Char)) (glen : List Char → Nat)
    (entry : CorpusEntry) (st : RunState) (hinv : RunInv st) :
    RunInv (processEntry phrases tokenize glen entry st) := by
  rw [processEntry]
  by_cases hs : entry.score < SCORE_THRESHOLD
  · rw [if_pos hs]
    exact hinv
  · rw [if_neg hs]
    exact processRecord_inv _ _ _ hinv

theorem build_corpus_inv (phrases : List HskPhrase)
    (tokenize : List Char → List (List Char)) (glen : List Char → Nat)
    (files : List (List CorpusEntry)) :
    RunInv (build_corpus phrases tokenize glen files) := by
  rw [build_corpus]
  apply foldl_inv
  · intro st entries h
    exact foldl_inv _ (fun st e h => processEntry_inv phrases tokenize glen e st h)
      _ st h
  · intro h
    exact ⟨List.chain'_nil, by intro r hr; simp at hr⟩

theorem dedupConsec_head (b : Nat × Nat) (rest : List (Nat × Nat)) :
    ∃ t, dedupConsec (b :: rest) = b :: t := by
  induction rest generalizing b with
  | nil => exact ⟨[], by rw [dedupConsec]⟩
  | cons c rest ih =>
    rw [dedupConsec]
    by_cases hbc : b = c
    · rw [if_pos hbc]
      subst hbc
      exact ih b
    · rw [if_neg hbc]
      exact ⟨dedupConsec (c :: rest), rfl⟩

theorem dedupConsec_chain' :
    ∀ l : List (Nat × Nat), l.Chain' (fun a b => a = b ∨ a.1 < b.1) →
      (dedupConsec l).Chain' (fun a b => a.1 < b.1) := by
  intro l
  induction l using dedupConsec.induct with
  | case1 => intro _; simp [dedupConsec]
  | case2 a => intro _; simp [dedupConsec]
  | case3 b rest ih =>
    intro hchain
    rw [List.chain'_cons] at hchain
    rw [dedupConsec, if_pos rfl]
    exact ih hchain.2
  | case4 a b rest hne ih =>
    intro hchain
    rw [List.chain'_cons] at hchain
    obtain ⟨hab, hrest⟩ := hchain
    rw [dedupConsec, if_neg hne]
    obtain ⟨t, ht⟩ := dedupConsec_head b rest
    rw [ht, List.chain'_cons]
    constructor
    · rcases hab with h | h
      · exact absurd h hne
      · exact h
    · rw [← ht]
      exact ih hrest

theorem chain'_lt_nodup {l : List (Nat × Nat)}
    (h : l.Chain' (fun a b => a.1 < b.1)) : l.Nodup := by
  haveI : IsTrans (Nat × Nat) (fun a b => a.1 < b.1) :=
    ⟨fun _ _ _ h1 h2 => Nat.lt_trans h1 h2⟩
  have hp := List.chain'_iff_pairwise.mp h
  exact hp.imp (fun hab => by intro he; subst he; exact Nat.lt_irrefl _ hab)

/-- C8: after the final per-handle `dedup` (which only removes consecutive
equal ranges), no handle's range list contains a duplicate at any pair of
positions: each stored snippet's range starts past every earlier range, so
equal ranges can only ever sit adjacently (repeated tokens of one
sentence), and the consecutive dedup therefore yields a duplicate-free
list. -/
theorem c8_dedup_globally_unique (phrases : List HskPhrase)
    (tokenize : List Char → List (List Char)) (glen : List Char → Nat)
    (files : List (List CorpusEntry)) (h : Nat) :
    (dedupedIndex phrases tokenize glen files h).Nodup := by
  have hinv := build_corpus_inv phrases tokenize glen files
  exact chain'_lt_nodup (dedupConsec_chain' _ (hinv h).1)

end ZhLearn
